import Mathlib

/- Verification development for the jedi value-inference core:
   a shallow embedding of src/jedi/inference/value/iterable.py and
   src/jedi/inference/value/function.py, together with proofs about the
   containers, overload resolution, return/yield inference and the dynamic
   container-mutation scanner. -/

namespace JediCore

/-- Primitive objects backing compiled (native) values: literal ints,
strings, bools and the builtin None. -/
inductive Obj where
  | intO (n : Int)
  | strO (s : String)
  | boolO (b : Bool)
  | noneO
deriving DecidableEq

/-- One abstract runtime value: a compiled/native value backed by a
primitive object, a tree-backed value identified by its definition node, or
the synthetic slice object produced for subscript entries of a literal. -/
inductive Value where
  | compiledV (o : Obj)
  | treeV (id : Nat)
  | sliceV
deriving DecidableEq

/-- A value set (jedi.inference.base_value.ValueSet): immutable and
deduplicated; the empty set is the valid "no information" result. -/
abbrev VSet := List Value

/-- NO_VALUES, the empty value set. -/
def NO_VALUES : VSet := []

/-- Add one value to a value set keeping deduplication. -/
def vadd (vs : VSet) (v : Value) : VSet :=
  if v ∈ vs then vs else vs ++ [v]

/-- Union of two value sets (the ValueSet or-merge). -/
def vunion (a b : VSet) : VSet := b.foldl vadd a

/-- Union of a list of value sets (ValueSet.from_sets). -/
def vUnionAll (l : List VSet) : VSet := l.foldl vunion NO_VALUES

/-- A syntax-tree node, identified abstractly. -/
abbrev Node := Nat

/-- Predefined names (jedi predefine_names): loop-variable bindings that are
active while a node is inferred; name identifiers are abstract. -/
abbrev PredefMap := List (Nat × VSet)

/-- jedi.inference.lazy_value: LazyKnownValue wraps one value,
LazyKnownValues wraps a pre-merged set, LazyTreeValue defers a tree node
(together with the predefined names that are active when it is forced). -/
inductive LazyValue where
  | known (v : Value)
  | knownValues (vs : VSet)
  | tree (predef : PredefMap) (n : Node)
deriving DecidableEq

/-- The defining context, abstracted as the external inference collaborator
of the spec: infer_node under a set of predefined names, and iteration of an
inferred node (ValueSet.iterate of the inferred values). -/
structure InferEnv where
  infer : PredefMap → Node → VSet
  iterate : PredefMap → Node → List LazyValue

/-- Forcing a lazy value (LazyValue.infer). -/
def LazyValue.inferIn (env : InferEnv) : LazyValue → VSet
  | .known v => [v]
  | .knownValues vs => vs
  | .tree p n => env.infer p n

/-- The array_type tag of a container value. -/
inductive ArrayType where
  | list
  | set
  | tuple
  | dict
deriving DecidableEq

/-- Synthetic containers of iterable.py: FakeSequence holds a pre-built
backing list of lazy values; MergedArray holds the child arrays whose
iterations are concatenated. -/
inductive Container where
  | fakeSeq (arrayType : ArrayType) (lazyValueList : List LazyValue)
  | merged (arrays : List Container)

mutual

/-- FakeSequence.py__iter__ returns the backing lazy-value list;
MergedArray.py__iter__ yields every lazy value of every child array in
child order. -/
def Container.pyIter : Container → List LazyValue
  | .fakeSeq _ l => l
  | .merged arrays => Container.pyIterList arrays

/-- The nested generator loop of MergedArray.py__iter__. -/
def Container.pyIterList : List Container → List LazyValue
  | [] => []
  | c :: cs => Container.pyIter c ++ Container.pyIterList cs

end

/-- The native equality capability (execute_operation with the == operator):
compiled values compare their underlying objects; any other value has no
execute_operation attribute, which the source observes as AttributeError,
reported here as none. -/
def executeOperationEq : Value → Obj → Option Bool
  | .compiledV o, idx => some (decide (o = idx))
  | _, _ => none

/-- The inner double loop of SequenceLiteralValue.py__simple_getitem__ for
one dict entry: some inferred key value carries execute_operation and
compares equal to the requested index. -/
def someKeyEquals (index : Obj) : VSet → Bool
  | [] => false
  | k :: ks =>
    match executeOperationEq k index with
    | some b => if b then true else someKeyEquals index ks
    | none => someKeyEquals index ks

/-- SequenceLiteralValue.py__simple_getitem__, dict branch: walk
get_tree_entries() in source order and return the inferred value of the
first entry whose inferred key compares equal to the index; none models the
SimpleGetItemNotFound signal. -/
def dictSimpleGetitem (ctx : Node → VSet) (entries : List (Node × Node))
    (index : Obj) : Option VSet :=
  match entries with
  | [] => none
  | (k, v) :: rest =>
    if someKeyEquals index (ctx k) then some (ctx v)
    else dictSimpleGetitem ctx rest index

/-- get_safe_value comparison used by DictComprehension: only compiled
values take part (the isinstance check), compared by underlying object. -/
def getSafeValueEq : Value → Obj → Bool
  | .compiledV o, idx => decide (o = idx)
  | _, _ => false

/-- DictComprehension.py__simple_getitem__: walk the iterated key/value
pairs in order and return the values of the first pair with a compiled key
whose safe value equals the index; none models SimpleGetItemNotFound. -/
def dictComprehensionGetitem (pairs : List (VSet × VSet)) (index : Obj) :
    Option VSet :=
  match pairs with
  | [] => none
  | (keys, values) :: rest =>
    if keys.any (fun k => getSafeValueEq k index) then some values
    else dictComprehensionGetitem rest index

/-- The merged key types of a dict literal as computed by
SequenceLiteralValue.py__iter__, dict branch: the union of the inferred
values of every key expression. -/
def dictKeyTypes (ctx : Node → VSet) (entries : List (Node × Node)) : VSet :=
  entries.foldl (fun types kv => vunion types (ctx kv.1)) NO_VALUES

/-- SequenceLiteralValue.py__iter__, dict branch: one LazyKnownValues entry
carrying the whole merged key set is yielded per element of that merged
set. -/
def dictLiteralPyIter (ctx : Node → VSet) (entries : List (Node × Node)) :
    List LazyValue :=
  (dictKeyTypes ctx entries).map (fun _ => LazyValue.knownValues (dictKeyTypes ctx entries))

/-- Example context for the duplicate-key dict literal of the spec: nodes 0
and 2 are the two key expressions both inferring to the string a, nodes 1
and 3 the value expressions 1 and 2. -/
def exDictCtx : Node → VSet
  | 0 => [.compiledV (.strO "a")]
  | 1 => [.compiledV (.intO 1)]
  | 2 => [.compiledV (.strO "a")]
  | 3 => [.compiledV (.intO 2)]
  | _ => []

/-- Example context for a dict literal with a single syntactic key whose key
expression infers to two possible values. -/
def exUnionKeyCtx : Node → VSet
  | 0 => [.compiledV (.intO 1), .compiledV (.strO "x")]
  | _ => []

/-- Result of flow_analysis.reachability_check for one statement relative to
the function body (the reachability collaborator of the spec): REACHABLE,
UNREACHABLE, or undecided. -/
inductive Reachability where
  | reachable
  | unreachable
  | unsure
deriving DecidableEq

/-- One return statement of a function body: its reachability
classification and its expression node; none is a bare return keyword,
which has no children attribute. -/
structure ReturnStmt where
  reach : Reachability
  expr : Option Node
deriving DecidableEq

/-- The builtin None value (compiled.builtin_from_name with name None). -/
def noneValue : Value := .compiledV .noneO

/-- The return-statement loop of FunctionExecutionContext.get_return_values
with check_yields=False: an UNREACHABLE return contributes nothing; a bare
return contributes the builtin None; any other return contributes the
inferred values of its expression; the loop breaks right after the first
return classified REACHABLE. -/
def returnStmtLoop (ctx : Node → VSet) : VSet → List ReturnStmt → VSet
  | acc, [] => acc
  | acc, r :: rs =>
    let acc2 :=
      if r.reach = .unreachable then acc
      else
        match r.expr with
        | none => vunion acc [noneValue]
        | some n => vunion acc (ctx n)
    if r.reach = .reachable then acc2 else returnStmtLoop ctx acc2 rs

/-- FunctionExecutionContext.get_return_values, check_yields=False: a
lambdef returns the inferred body; a non-empty annotated return type is
returned immediately; otherwise the docstring-derived types seed the
return-statement scan. -/
def getReturnValues (ctx : Node → VSet) (lambdaBody : Option Node)
    (annotTypes docstringTypes : VSet) (returns : List ReturnStmt) : VSet :=
  match lambdaBody with
  | some n => ctx n
  | none =>
    if annotTypes.isEmpty then
      returnStmtLoop ctx (vunion annotTypes docstringTypes) returns
    else annotTypes

/-- One funcdef in a scope: its start position and whether
_is_overload_decorated holds for it (an overload decorator line directly
above the definition). -/
structure FuncDef where
  pos : Nat
  decorated : Bool
deriving DecidableEq

/-- The fold step selecting the latest-starting definition. -/
def pickLater (best : Option FuncDef) (d : FuncDef) : Option FuncDef :=
  match best with
  | none => some d
  | some b => if b.pos < d.pos then some d else some b

/-- Modelled from the spec: the scope name-filter capability of sections 4.4
and 6 as used by _find_overload_functions through ParserTreeFilter with
until_position (filters.py is not under src/): for a position it returns the
immediately preceding same-named definition, the latest one starting before
that position. -/
def nearestPrecedingDef (defs : List FuncDef) (pos : Nat) : Option FuncDef :=
  (defs.filter (fun d => d.pos < pos)).foldl pickLater none

/-- The while-loop of _find_overload_functions: walk backward from the
given position, collecting each immediately preceding overload-decorated
definition and stopping at the first definition without the marker (or when
none is left).  Every step moves to a strictly smaller start position, so
the start position itself bounds the number of iterations; the fuel
argument makes that measure structural (fuelIrrelevant below shows the
bound never cuts the walk short). -/
def findOverloadsFromLoop (defs : List FuncDef) : Nat → Nat → List FuncDef
  | 0, _ => []
  | fuel + 1, pos =>
    match nearestPrecedingDef defs pos with
    | none => []
    | some d => if d.decorated then d :: findOverloadsFromLoop defs fuel d.pos else []

/-- The full _find_overload_functions: the node itself when decorated,
followed by the backward chain of immediately preceding overload-decorated
definitions; candidates come out nearest-first, that is in reverse textual
order. -/
def findOverloadFunctions (defs : List FuncDef) (node : FuncDef) : List FuncDef :=
  (if node.decorated then [node] else []) ++ findOverloadsFromLoop defs node.pos node.pos

/-- The collaborator outcomes of one call input: whether an execution
context built for a candidate matches its signature, and what its inference
returns (argument binding is the external argument collaborator). -/
structure OverloadEnv where
  sigMatches : FuncDef → Bool
  inferExec : FuncDef → VSet

/-- The candidate loop of OverloadedFunctionValue.py__call__: each
candidate gets its own freshly created execution context; the first one
whose matches_signature() succeeds is returned at once; when the loop falls
through, analysis mode returns NO_VALUES and otherwise the inferred results
of all the accumulated executions are merged. -/
def overloadedPyCallLoop (env : OverloadEnv) (isAnalysis : Bool)
    (all : List FuncDef) : List FuncDef → VSet
  | [] => if isAnalysis then NO_VALUES else vUnionAll (all.map env.inferExec)
  | f :: rest =>
    if env.sigMatches f then env.inferExec f
    else overloadedPyCallLoop env isAnalysis all rest

/-- OverloadedFunctionValue.py__call__ over a candidate list. -/
def overloadedPyCall (env : OverloadEnv) (isAnalysis : Bool)
    (cands : List FuncDef) : VSet :=
  overloadedPyCallLoop env isAnalysis cands cands

/-- The glue of FunctionValue.from_context: the candidate list handed to
OverloadedFunctionValue is exactly the list _find_overload_functions
yields, in that order. -/
def overloadResolutionResult (env : OverloadEnv) (isAnalysis : Bool)
    (defs : List FuncDef) (node : FuncDef) : VSet :=
  overloadedPyCall env isAnalysis (findOverloadFunctions defs node)

/-- Concrete overload scenario: two overload-decorated definitions at
positions 1 and 2, the undecorated implementation at position 3. -/
def exO1 : FuncDef := ⟨1, true⟩

/-- The second overload-decorated definition of the scenario. -/
def exO2 : FuncDef := ⟨2, true⟩

/-- The undecorated implementation of the scenario. -/
def exImpl : FuncDef := ⟨3, false⟩

/-- The same-named definitions of the scenario's scope in textual order. -/
def exOverloadDefs : List FuncDef := [exO1, exO2, exImpl]

/-- A call input both overloads accept, with distinguishable inferences. -/
def exOverloadEnv : OverloadEnv :=
  ⟨fun _ => true,
   fun f => if f.pos = 1 then [.compiledV (.intO 1)] else [.compiledV (.strO "x")]⟩

/-- The typed recoverable-or-fatal signals of the embedded operations. -/
inductive JediErr where
  | notImplementedError
deriving DecidableEq

/-- One occurrence of a mutation-method name (append, extend, insert, add,
update) in the module's used-names index, together with the syntactic shape
around it: name.parent is a trailer inside a power node, and the following
sibling of that trailer is the candidate execution trailer. -/
structure AddNameOccurrence where
  pos : Nat
  hasExecutionTrailer : Bool
  executionIsTrailer : Bool
  opensParen : Bool
  hasArgs : Bool
deriving DecidableEq

/-- The continue-checks of the _check_array_additions occurrence loop: an
occurrence is a candidate call site when its position lies strictly inside
the span of the container's context node and it is followed by a
parenthesised call trailer with at least one argument. -/
def isCandidateCallSite (ctxStart ctxEnd : Nat) (o : AddNameOccurrence) : Bool :=
  decide (ctxStart < o.pos) && decide (o.pos < ctxEnd) &&
    o.hasExecutionTrailer && o.executionIsTrailer && o.opensParen && o.hasArgs

/-- The occurrence loop of _check_array_additions: the first candidate call
site reaches the raise NotImplementedError statement at iterable.py line
720, before any call-site inference or addition collection can run; with no
candidate the loop falls through and the added-types set stays empty. -/
def scanAddNameOccurrences (ctxStart ctxEnd : Nat) :
    List AddNameOccurrence → Except JediErr (List LazyValue)
  | [] => .ok []
  | o :: os =>
    if isCandidateCallSite ctxStart ctxEnd o then .error .notImplementedError
    else scanAddNameOccurrences ctxStart ctxEnd os

/-- The body of _check_array_additions: NO_VALUES at once when the
dynamic_array_additions setting is off or the module context is a compiled
(opaque/native) module; otherwise every used occurrence of the relevant
method names is scanned (append, extend, insert for lists; add, update for
sets). -/
def checkArrayAdditionsInner (dynamicArrayAdditions moduleIsCompiled : Bool)
    (ctxStart ctxEnd : Nat) (isList : Bool)
    (usedNames : String → List AddNameOccurrence) :
    Except JediErr (List LazyValue) :=
  if dynamicArrayAdditions = false ∨ moduleIsCompiled = true then .ok []
  else
    scanAddNameOccurrences ctxStart ctxEnd
      ((if isList then ["append", "extend", "insert"] else ["add", "update"]).flatMap usedNames)

/-- check_array_additions: only list and set containers are scanned at all
(the container's name string is its array_type). -/
def checkArrayAdditions (arrayType : ArrayType)
    (dynamicArrayAdditions moduleIsCompiled : Bool) (ctxStart ctxEnd : Nat)
    (usedNames : String → List AddNameOccurrence) :
    Except JediErr (List LazyValue) :=
  if arrayType = .list ∨ arrayType = .set then
    checkArrayAdditionsInner dynamicArrayAdditions moduleIsCompiled ctxStart ctxEnd
      (decide (arrayType = .list)) usedNames
  else .ok []

/-- One tree entry of a non-dict sequence literal: either the colon or
subscript entry of a subscriptlist (yielding a synthetic slice) or an
ordinary element node. -/
inductive SeqEntry where
  | subscriptColon
  | element (n : Node)
deriving DecidableEq

/-- The per-entry lazy value of SequenceLiteralValue.py__iter__. -/
def seqEntryLazy : SeqEntry → LazyValue
  | .subscriptColon => .known .sliceV
  | .element n => .tree [] n

/-- SequenceLiteralValue.py__iter__, non-dict branch: one lazy value per
literal entry in source order, then every addition found by the mutation
scanner; an error escaping the scanner aborts the iteration. -/
def seqLiteralPyIter (entries : List SeqEntry) (arrayType : ArrayType)
    (dynamicArrayAdditions moduleIsCompiled : Bool) (ctxStart ctxEnd : Nat)
    (usedNames : String → List AddNameOccurrence) :
    Except JediErr (List LazyValue) :=
  match checkArrayAdditions arrayType dynamicArrayAdditions moduleIsCompiled
      ctxStart ctxEnd usedNames with
  | .error e => .error e
  | .ok additions => .ok (entries.map seqEntryLazy ++ additions)

/-- Used-names index of the C1 scenario module: the two a.append call sites
of the spec example, both inside the container's context span. -/
def exC1UsedNames : String → List AddNameOccurrence := fun s =>
  if s = "append" then
    [⟨10, true, true, true, true⟩, ⟨20, true, true, true, true⟩]
  else []

/-- Used-names index of a module with one s.add call site on a set. -/
def exC2UsedNames : String → List AddNameOccurrence := fun s =>
  if s = "add" then [⟨5, true, true, true, true⟩] else []

/-- One for_stmt as seen by get_yield_lazy_values: its node identity, the
direct-child test (its parent, unwrapping one suite, is the funcdef), the
for_stmt_defines_one_name test, the bound loop variable name and the
testlist node of its iterable. -/
structure ForStmt where
  id : Nat
  directChild : Bool
  oneName : Bool
  varName : Nat
  iterNode : Node
deriving DecidableEq

/-- The nearest ancestor of a yield expression among for_stmt, while_stmt,
if_stmt and the funcdef itself, as found by tree.search_ancestor. -/
inductive YieldAncestor where
  | forLoop (fs : ForStmt)
  | funcdefSelf
  | whileOrIf
deriving DecidableEq

/-- The three shapes handled by _get_yield_lazy_value: a bare yield
keyword, a yield of an expression node, and a yield-from. -/
inductive YieldKind where
  | bare
  | exprNode (n : Node)
  | yieldFrom (n : Node)
deriving DecidableEq

/-- One yield expression of a function: its shape, its nearest enclosing
ancestor, and its reachability classification. -/
structure YieldExpr where
  kind : YieldKind
  anc : YieldAncestor
  reach : Reachability
deriving DecidableEq

/-- FunctionExecutionContext._get_yield_lazy_value under the predefined
names that are active when it runs: a bare yield yields the builtin None; a
yield-from iterates the inferred argument; any other yield defers its
node. -/
def getYieldLazyValue (env : InferEnv) (predef : PredefMap) : YieldKind → List LazyValue
  | .bare => [.known noneValue]
  | .exprNode n => [.tree predef n]
  | .yieldFrom n => env.iterate predef n

/-- The return-statement loop of get_return_values with check_yields=True:
per yield the lazy values of _get_yield_lazy_value are inferred and
unioned; UNREACHABLE yields contribute nothing; the loop breaks right after
the first yield classified REACHABLE. -/
def yieldAggregateLoop (env : InferEnv) : VSet → List YieldExpr → VSet
  | acc, [] => acc
  | acc, y :: ys =>
    let acc2 :=
      if y.reach = .unreachable then acc
      else vunion acc (vUnionAll ((getYieldLazyValue env [] y.kind).map (LazyValue.inferIn env)))
    if y.reach = .reachable then acc2 else yieldAggregateLoop env acc2 ys

/-- get_return_values with check_yields=True: the unordered aggregate of
the function's yields (annotations and docstrings do not take part in this
branch). -/
def getReturnValuesCheckYields (env : InferEnv) (ys : List YieldExpr) : VSet :=
  yieldAggregateLoop env NO_VALUES ys

/-- The yields_order[-1][1].append(yield_) step: extend the last group. -/
def appendToLastGroup (acc : List (Option ForStmt × List YieldExpr))
    (y : YieldExpr) : List (Option ForStmt × List YieldExpr) :=
  match acc with
  | [] => []
  | [g] => [(g.1, g.2 ++ [y])]
  | g :: gs => g :: appendToLastGroup gs y

/-- The first pass of get_yield_lazy_values: build yields_order, grouping a
yield with the previous one exactly when both sit in the same qualifying
for-loop (a for_stmt that is a direct child of the function body and binds
exactly one name); a direct yield of the body forms its own singleton
group; anything else (a while_stmt or if_stmt ancestor, or a for-loop
failing the qualification) abandons ordering, modelled as none.  lastForId
mirrors last_for_stmt, none when the previous yield was not in a qualifying
for-loop. -/
def buildYieldsOrder : List YieldExpr → Option Nat →
    List (Option ForStmt × List YieldExpr) →
    Option (List (Option ForStmt × List YieldExpr))
  | [], _, acc => some acc
  | y :: ys, lastForId, acc =>
    match y.anc with
    | .forLoop fs =>
      if fs.directChild && fs.oneName then
        if lastForId = some fs.id then
          buildYieldsOrder ys (some fs.id) (appendToLastGroup acc y)
        else
          buildYieldsOrder ys (some fs.id) (acc ++ [(some fs, [y])])
      else none
    | .funcdefSelf => buildYieldsOrder ys none (acc ++ [(none, [y])])
    | .whileOrIf => none

/-- The second pass of get_yield_lazy_values for one group: a group without
a for_stmt emits the lazy values of its yields directly; for a qualifying
for-loop the loop's iterable is inferred and iterated once, and for each of
its iterations the loop variable name is predefined to that iteration's
inferred element set before every yield of the group is re-evaluated. -/
def processYieldGroup (env : InferEnv) :
    Option ForStmt × List YieldExpr → List LazyValue
  | (none, ys) => ys.flatMap (fun y => getYieldLazyValue env [] y.kind)
  | (some fs, ys) =>
    (env.iterate [] fs.iterNode).flatMap (fun lv =>
      ys.flatMap (fun y =>
        getYieldLazyValue env [(fs.varName, lv.inferIn env)] y.kind))

/-- FunctionExecutionContext.get_yield_lazy_values: group the yields by
their nearest enclosing simple for-loop; one yield in a more complex
position makes the whole computation fall back to the aggregated
return-value computation with check_yields=True (one LazyKnownValues entry
when that aggregate is non-empty, nothing otherwise). -/
def getYieldLazyValues (env : InferEnv) (ys : List YieldExpr) : List LazyValue :=
  match buildYieldsOrder ys none [] with
  | none =>
    if (getReturnValuesCheckYields env ys).isEmpty then []
    else [.knownValues (getReturnValuesCheckYields env ys)]
  | some groups => groups.flatMap (processYieldGroup env)

/-- A yield position the ordering pass refuses to track: a while_stmt or
if_stmt ancestor, or a for-loop that is not a direct child of the function
body or binds more than one name. -/
def isComplexYieldPosition (y : YieldExpr) : Bool :=
  match y.anc with
  | .whileOrIf => true
  | .forLoop fs => !(fs.directChild && fs.oneName)
  | .funcdefSelf => false

/-- The qualifying for-loop of the spec example for x in (1, 2): yield x;
name 7 is x, node 100 the tuple literal. -/
def exC6Fs : ForStmt := ⟨0, true, true, 7, 100⟩

/-- The yield x of the example, sitting in that for-loop. -/
def exC6Yield : YieldExpr := ⟨.exprNode 5, .forLoop exC6Fs, .unsure⟩

/-- A yield inside a while-loop, which cannot be ordering-tracked. -/
def exC6ComplexYield : YieldExpr := ⟨.exprNode 6, .whileOrIf, .unsure⟩

/-- The example context: iterating the tuple literal at node 100 gives the
known elements 1 and 2; node 5 (the yield expression x) infers to the
predefined binding of name 7; node 6 infers to the int 3. -/
def exC6Env : InferEnv where
  infer := fun predef n =>
    if n = 5 then
      match predef.find? (fun b => b.1 = 7) with
      | some b => b.2
      | none => []
    else if n = 6 then [.compiledV (.intO 3)]
    else []
  iterate := fun _ n =>
    if n = 100 then [.known (.compiledV (.intO 1)), .known (.compiledV (.intO 2))]
    else []

/-- Modelled from the spec: the execution_recursion_decorator of
jedi.inference.recursion (recursion.py is not under src/), the guard that
wraps both get_return_values and get_yield_lazy_values.  It is keyed by the
execution context identity: a re-entry for an identity already on the guard
skips the computation and returns the configured default. -/
def executionRecursionGuard {α : Type} (guard : List Nat) (execId : Nat)
    (dflt : α) (compute : Unit → α) : α :=
  if execId ∈ guard then dflt else compute ()

/-- get_return_values as decorated in the source: wrapped by the
execution-recursion guard with default NO_VALUES. -/
def getReturnValuesGuarded (guard : List Nat) (execId : Nat)
    (ctx : Node → VSet) (lambdaBody : Option Node)
    (annotTypes docstringTypes : VSet) (returns : List ReturnStmt) : VSet :=
  executionRecursionGuard guard execId NO_VALUES
    (fun _ => getReturnValues ctx lambdaBody annotTypes docstringTypes returns)

/-- get_yield_lazy_values as decorated in the source: wrapped by the
execution-recursion guard with an empty-iterator default. -/
def getYieldLazyValuesGuarded (guard : List Nat) (execId : Nat)
    (env : InferEnv) (ys : List YieldExpr) : List LazyValue :=
  executionRecursionGuard guard execId [] (fun _ => getYieldLazyValues env ys)

/-- Modelled from the spec (sections 4.5 and 5): recursion-guarded
inference over a finite system of executions.  Each execution identity k
has a base value set and may re-enter the executions deps k; every entry
pushes the identity onto the duplicate-free guard and a re-entry for an
identity already on the guard returns the empty default.  The guard grows
strictly and its length is bounded by the number of identities, so the
recursion terminates. -/
def guardedInference (n : Nat) (base : Fin n → VSet) (deps : Fin n → List (Fin n))
    (guard : {l : List (Fin n) // l.Nodup}) (k : Fin n) : VSet :=
  if hk : k ∈ guard.1 then NO_VALUES
  else
    (deps k).foldl
      (fun acc d =>
        vunion acc
          (guardedInference n base deps ⟨k :: guard.1, guard.2.cons hk⟩ d))
      (base k)
termination_by n - guard.1.length
decreasing_by
  have h1 : (k :: guard.1).Nodup := guard.2.cons hk
  have h2 : (k :: guard.1).length ≤ n := by
    have := h1.length_le_card
    simpa using this
  simp only [List.length_cons] at h2 ⊢
  omega

theorem mem_vadd_self (vs : VSet) (v : Value) : v ∈ vadd vs v := by
  unfold vadd
  split
  · assumption
  · simp

theorem mem_vadd_of_mem {vs : VSet} {x : Value} (h : x ∈ vs) (v : Value) :
    x ∈ vadd vs v := by
  unfold vadd
  split
  · exact h
  · simp [h]

theorem vunion_nil (a : VSet) : vunion a [] = a := rfl

theorem vunion_cons (a : VSet) (v : Value) (bs : List Value) :
    vunion a (v :: bs) = vunion (vadd a v) bs := rfl

theorem mem_vunion_left {x : Value} :
    ∀ (b : List Value) (a : VSet), x ∈ a → x ∈ vunion a b := by
  intro b
  induction b with
  | nil => exact fun a h => h
  | cons v bs ih => exact fun a h => ih (vadd a v) (mem_vadd_of_mem h v)

theorem returnStmtLoop_mem_step {ctx : Node → VSet} {x : Value} {acc : VSet}
    (h : x ∈ acc) (r : ReturnStmt) :
    x ∈ (if r.reach = .unreachable then acc
         else
           match r.expr with
           | none => vunion acc [noneValue]
           | some n => vunion acc (ctx n)) := by
  split
  · exact h
  · split <;> exact mem_vunion_left _ _ h

theorem mem_returnStmtLoop {ctx : Node → VSet} {x : Value} :
    ∀ (rs : List ReturnStmt) (acc : VSet), x ∈ acc → x ∈ returnStmtLoop ctx acc rs := by
  intro rs
  induction rs with
  | nil => exact fun acc h => h
  | cons r rs ih =>
    intro acc h
    simp only [returnStmtLoop]
    split
    · exact returnStmtLoop_mem_step h r
    · exact ih _ (returnStmtLoop_mem_step h r)

theorem returnStmtLoop_unreachable {ctx : Node → VSet} {u : ReturnStmt}
    (hu : u.reach = .unreachable) (post : List ReturnStmt) :
    ∀ (pre : List ReturnStmt) (acc : VSet),
      returnStmtLoop ctx acc (pre ++ u :: post) = returnStmtLoop ctx acc (pre ++ post) := by
  intro pre
  induction pre with
  | nil => intro acc; simp [returnStmtLoop, hu]
  | cons r pre ih =>
    intro acc
    simp only [List.cons_append, returnStmtLoop]
    split
    · rfl
    · exact ih _

theorem returnStmtLoop_reachable_stop {ctx : Node → VSet} {r : ReturnStmt}
    (hr : r.reach = .reachable) (post : List ReturnStmt) :
    ∀ (pre : List ReturnStmt) (acc : VSet),
      returnStmtLoop ctx acc (pre ++ r :: post) = returnStmtLoop ctx acc (pre ++ [r]) := by
  intro pre
  induction pre with
  | nil => intro acc; simp [returnStmtLoop, hr]
  | cons q pre ih =>
    intro acc
    simp only [List.cons_append, returnStmtLoop]
    split
    · rfl
    · exact ih _

theorem pyIterList_eq_flatten :
    ∀ (cs : List Container), Container.pyIterList cs = (cs.map Container.pyIter).flatten := by
  intro cs
  induction cs with
  | nil => rfl
  | cons c cs ih => simp [Container.pyIterList, ih]

/-- Claim C8 (confirmed): building a synthetic sequence (FakeSequence) from
a backing list of lazy values and iterating it yields exactly that list, in
order, with no loss or duplication; in particular a FakeSequence built from
N known value-sets iterates and resolves back to exactly those N value-sets
in order; and a merged container (MergedArray) iterates to the
concatenation of its child containers' iterations in child order. -/
theorem c8_fake_sequence_round_trip_and_merged_concat :
    (∀ (t : ArrayType) (l : List LazyValue), Container.pyIter (.fakeSeq t l) = l) ∧
    (∀ (env : InferEnv) (sets : List VSet),
      (Container.pyIter (.fakeSeq .list (sets.map LazyValue.knownValues))).map
        (LazyValue.inferIn env) = sets) ∧
    (∀ (arrays : List Container),
      Container.pyIter (.merged arrays) = (arrays.map Container.pyIter).flatten) := by
  refine ⟨fun t l => rfl, ?_, ?_⟩
  · intro env sets
    simp [Container.pyIter, List.map_map, Function.comp_def, LazyValue.inferIn]
  · intro arrays
    simp only [Container.pyIter]
    exact pyIterList_eq_flatten arrays

/-- Claim C3 (confirmed): dict indexing of a literal evaluates the key
expressions in source order and returns the inferred value set of the first
entry whose inferred key compares equal (through the native equality
capability) to the requested index, stopping there, and signals "key not
found" (none) when no key matches; the duplicate-key example of the spec
returns the first value 1, not 2.  The DictComprehension variant stops at
its first match in the same way. -/
theorem c3_dict_getitem_first_match :
    (∀ (ctx : Node → VSet) (entries : List (Node × Node)) (index : Obj),
      dictSimpleGetitem ctx entries index =
        (entries.find? (fun kv => someKeyEquals index (ctx kv.1))).map (fun kv => ctx kv.2)) ∧
    (∀ (pairs : List (VSet × VSet)) (index : Obj),
      dictComprehensionGetitem pairs index =
        (pairs.find? (fun kv => kv.1.any (fun k => getSafeValueEq k index))).map
          (fun kv => kv.2)) ∧
    dictSimpleGetitem exDictCtx [(0, 1), (2, 3)] (.strO "a") =
      some [.compiledV (.intO 1)] ∧
    dictSimpleGetitem exDictCtx [(0, 1), (2, 3)] (.strO "b") = none := by
  refine ⟨?_, ?_, by decide, by decide⟩
  · intro ctx entries index
    induction entries with
    | nil => rfl
    | cons kv rest ih =>
      obtain ⟨k, v⟩ := kv
      simp only [dictSimpleGetitem, List.find?]
      by_cases h : someKeyEquals index (ctx k) = true
      · simp [h]
      · simp only [Bool.not_eq_true] at h
        simp [h, ih]
  · intro pairs index
    induction pairs with
    | nil => rfl
    | cons kv rest ih =>
      obtain ⟨keys, values⟩ := kv
      simp only [dictComprehensionGetitem, List.find?]
      by_cases h : keys.any (fun k => getSafeValueEq k index) = true
      · simp [h]
      · simp only [Bool.not_eq_true] at h
        simp [h, ih]

/-- Claim C1 (code bug): in the module of the spec example (an empty list
literal followed by a.append(1) and a.append("x") inside the container's
context span) with dynamic_array_additions enabled, iterating the literal
must yield the two lazy additions; instead the scanner hits the raise
NotImplementedError planted at iterable.py line 720 before collecting
anything, so the iteration aborts with an uncaught NotImplementedError.
The other half of the claim does hold: with the feature disabled, with an
opaque/native home module, or with no candidate call sites, the scanner
returns the empty set immediately and the empty literal iterates to no
elements. -/
theorem c1_mutation_scanner_crashes_instead_of_adding :
    seqLiteralPyIter [] .list true false 0 100 exC1UsedNames =
      .error .notImplementedError ∧
    seqLiteralPyIter [] .list false false 0 100 exC1UsedNames = .ok [] ∧
    seqLiteralPyIter [] .list true true 0 100 exC1UsedNames = .ok [] ∧
    seqLiteralPyIter [] .list true false 0 100 (fun _ => []) = .ok [] := by
  exact ⟨rfl, rfl, rfl, rfl⟩

/-- Claim C2 (code bug): the core is supposed to degrade every unexpected
case to "no information", but the mutation scanner contains an unguarded
raise NotImplementedError (iterable.py line 720) that fires on the first
candidate call site, aborting the analysis of a module holding one s.add
call site on a tracked set. -/
theorem c2_scanner_aborts_with_uncaught_fatal :
    checkArrayAdditionsInner true false 0 50 false exC2UsedNames =
      .error .notImplementedError := by
  rfl

/-- Claim C9 counterexample: a dict literal with exactly one syntactic key
whose key expression infers to two possible values iterates to two lazy
entries, not one entry per syntactic key slot as the claim states. -/
theorem c9_counterexample_union_key :
    ¬ ((dictLiteralPyIter exUnionKeyCtx [(0, 1)]).length =
        ([((0 : Node), (1 : Node))] : List (Node × Node)).length) := by
  decide

/-- Claim C5 (confirmed): a non-empty annotated return-type set is returned
immediately, short-circuiting both the docstring hints (which are only
unioned in afterwards) and the whole return-statement scan; otherwise a
return classified UNREACHABLE contributes nothing (deleting it does not
change the result), and the scan stops at the first return classified
REACHABLE (every later return statement is ignored). -/
theorem c5_return_value_computation :
    (∀ (ctx : Node → VSet) (annotTypes docstringTypes : VSet)
        (rets : List ReturnStmt), annotTypes ≠ [] →
      getReturnValues ctx none annotTypes docstringTypes rets = annotTypes) ∧
    (∀ (ctx : Node → VSet) (docstringTypes : VSet) (pre : List ReturnStmt)
        (u : ReturnStmt) (post : List ReturnStmt), u.reach = .unreachable →
      getReturnValues ctx none [] docstringTypes (pre ++ u :: post) =
        getReturnValues ctx none [] docstringTypes (pre ++ post)) ∧
    (∀ (ctx : Node → VSet) (docstringTypes : VSet) (pre : List ReturnStmt)
        (r : ReturnStmt) (post : List ReturnStmt), r.reach = .reachable →
      getReturnValues ctx none [] docstringTypes (pre ++ r :: post) =
        getReturnValues ctx none [] docstringTypes (pre ++ [r])) := by
  refine ⟨?_, ?_, ?_⟩
  · intro ctx annot doc rets h
    have hne : annot.isEmpty = false := by
      cases annot with
      | nil => exact absurd rfl h
      | cons a l => rfl
    simp [getReturnValues, hne]
  · intro ctx doc pre u post hu
    exact returnStmtLoop_unreachable hu post pre _
  · intro ctx doc pre r post hr
    exact returnStmtLoop_reachable_stop hr post pre _

/-- Witness for C5 at concrete inputs: an annotated int short-circuits a
reachable return scan; dropping an unreachable return; stopping at a
reachable bare return with a trailing return behind it. -/
theorem c5_witness :
    getReturnValues (fun _ => []) none [.compiledV (.intO 7)] [.sliceV]
        [⟨.reachable, none⟩] = [.compiledV (.intO 7)] ∧
    getReturnValues (fun _ => []) none [] [.sliceV]
        ([] ++ (⟨.unreachable, some 0⟩ : ReturnStmt) :: [⟨.unsure, some 1⟩]) =
      getReturnValues (fun _ => []) none [] [.sliceV] ([] ++ [⟨.unsure, some 1⟩]) ∧
    getReturnValues (fun _ => []) none [] [.sliceV]
        ([⟨.unsure, some 0⟩] ++ (⟨.reachable, none⟩ : ReturnStmt) :: [⟨.unsure, some 1⟩]) =
      getReturnValues (fun _ => []) none [] [.sliceV]
        ([⟨.unsure, some 0⟩] ++ [⟨.reachable, none⟩]) :=
  ⟨c5_return_value_computation.1 _ _ _ _ (by decide),
   c5_return_value_computation.2.1 _ _ _ _ _ rfl,
   c5_return_value_computation.2.2 _ _ _ _ _ rfl⟩

/-- Claim C10 (confirmed): a reachable (more precisely, any
not-UNREACHABLE) bare return statement contributes exactly the builtin None
value to the execution's return value set: None is among the returned
values whatever else surrounds the statement, and with no annotation, no
docstring hints and no other returns, the result is exactly the singleton
None — not nothing and not the empty set. -/
theorem c10_bare_return_contributes_none :
    (∀ (ctx : Node → VSet) (docstringTypes : VSet) (c : Reachability)
        (rs : List ReturnStmt), c ≠ .unreachable →
      noneValue ∈ getReturnValues ctx none [] docstringTypes (⟨c, none⟩ :: rs)) ∧
    (∀ (ctx : Node → VSet) (c : Reachability), c ≠ .unreachable →
      getReturnValues ctx none [] [] [⟨c, none⟩] = [noneValue]) := by
  constructor
  · intro ctx doc c rs hc
    show noneValue ∈ returnStmtLoop ctx (vunion [] doc) (⟨c, none⟩ :: rs)
    have hA : noneValue ∈ vunion (vunion [] doc) [noneValue] := mem_vadd_self _ _
    cases c with
    | reachable => simpa [returnStmtLoop] using hA
    | unreachable => exact absurd rfl hc
    | unsure => simpa [returnStmtLoop] using mem_returnStmtLoop rs _ hA
  · intro ctx c hc
    cases c with
    | reachable => rfl
    | unreachable => exact absurd rfl hc
    | unsure => rfl

/-- Witness for C10: a single reachable bare return produces None, and
exactly None. -/
theorem c10_witness :
    noneValue ∈ getReturnValues (fun _ => []) none [] [] [⟨.reachable, none⟩] ∧
    getReturnValues (fun _ => []) none [] [] [⟨.reachable, none⟩] = [noneValue] :=
  ⟨c10_bare_return_contributes_none.1 _ _ _ _ (by decide),
   c10_bare_return_contributes_none.2 _ _ (by decide)⟩

theorem vadd_not_mem {vs : VSet} {v : Value} (h : v ∉ vs) : vadd vs v = vs ++ [v] := by
  simp [vadd, h]

theorem foldl_vadd_nodup :
    ∀ (l : List Value) (acc : VSet), (acc ++ l).Nodup → l.foldl vadd acc = acc ++ l := by
  intro l
  induction l with
  | nil => intro acc _; simp
  | cons v l ih =>
    intro acc h
    have hv : v ∉ acc := fun hvm =>
      (List.nodup_append.mp h).2.2 hvm (List.mem_cons_self v l)
    simp only [List.foldl_cons]
    rw [vadd_not_mem hv]
    rw [ih (acc ++ [v]) (by simpa [List.append_assoc] using h)]
    simp

theorem foldl_vunion_flatten :
    ∀ (ls : List VSet) (acc : VSet), ls.foldl vunion acc = ls.flatten.foldl vadd acc := by
  intro ls
  induction ls with
  | nil => intro acc; rfl
  | cons a ls ih =>
    intro acc
    simp only [List.foldl_cons, List.flatten_cons, List.foldl_append]
    exact ih _

theorem dictKeyTypes_flatten (ctx : Node → VSet) (entries : List (Node × Node)) :
    dictKeyTypes ctx entries =
      (entries.map (fun kv => ctx kv.1)).flatten.foldl vadd [] := by
  unfold dictKeyTypes NO_VALUES
  rw [← foldl_vunion_flatten]
  rw [List.foldl_map]

theorem flatten_singletons_length (ctx : Node → VSet) :
    ∀ (entries : List (Node × Node)), (∀ kv ∈ entries, ∃ v, ctx kv.1 = [v]) →
      (entries.map (fun kv => ctx kv.1)).flatten.length = entries.length := by
  intro entries
  induction entries with
  | nil => intro _; rfl
  | cons kv entries ih =>
    intro h
    obtain ⟨v, hv⟩ := h kv (List.mem_cons_self kv entries)
    simp [hv, ih (fun x hx => h x (List.mem_cons_of_mem kv hx))]

/-- Claim C9 amended (corrected): iterating a dict literal yields only
keys, every entry being a LazyKnownValues of the whole merged key set, and
the number of entries equals the size of that merged (deduplicated) key
value-set — not the number of syntactic key slots.  The two coincide
exactly in the benign case in which every key expression infers to a single
value and those values are pairwise distinct. -/
theorem c9_amended_dict_iter_per_merged_key :
    (∀ (ctx : Node → VSet) (entries : List (Node × Node)),
      (dictLiteralPyIter ctx entries).length = (dictKeyTypes ctx entries).length) ∧
    (∀ (ctx : Node → VSet) (entries : List (Node × Node))
        (lv : LazyValue), lv ∈ dictLiteralPyIter ctx entries →
      lv = LazyValue.knownValues (dictKeyTypes ctx entries)) ∧
    (∀ (ctx : Node → VSet) (entries : List (Node × Node)),
      (∀ kv ∈ entries, ∃ v, ctx kv.1 = [v]) →
      ((entries.map (fun kv => ctx kv.1)).flatten).Nodup →
      (dictLiteralPyIter ctx entries).length = entries.length) := by
  refine ⟨?_, ?_, ?_⟩
  · intro ctx entries
    simp [dictLiteralPyIter]
  · intro ctx entries lv h
    rcases List.mem_map.mp h with ⟨v, _, rfl⟩
    rfl
  · intro ctx entries hsing hnd
    have h1 : dictKeyTypes ctx entries = (entries.map (fun kv => ctx kv.1)).flatten := by
      rw [dictKeyTypes_flatten]
      exact foldl_vadd_nodup _ [] (by simpa using hnd)
    have h2 : (dictLiteralPyIter ctx entries).length = (dictKeyTypes ctx entries).length := by
      simp [dictLiteralPyIter]
    rw [h2, h1, flatten_singletons_length ctx entries hsing]

/-- Witness for the amended C9: two distinct single-valued keys give two
lazy entries for two syntactic slots. -/
theorem c9_amended_witness :
    (dictLiteralPyIter (fun n => [Value.treeV n]) [(0, 1), (2, 3)]).length =
      ([((0 : Node), (1 : Node)), (2, 3)] : List (Node × Node)).length :=
  c9_amended_dict_iter_per_merged_key.2.2 (fun n => [Value.treeV n]) [(0, 1), (2, 3)]
    (fun kv _ => ⟨Value.treeV kv.1, rfl⟩) (by decide)

theorem pickLater_preserves (P : FuncDef → Prop) :
    ∀ (l : List FuncDef) (acc : Option FuncDef),
      (∀ x, acc = some x → P x) → (∀ x ∈ l, P x) →
      ∀ d, l.foldl pickLater acc = some d → P d := by
  intro l
  induction l with
  | nil => intro acc hacc _ d hd; exact hacc d hd
  | cons a l ih =>
    intro acc hacc hl d hd
    refine ih (pickLater acc a) ?_ (fun x hx => hl x (List.mem_cons_of_mem a hx)) d hd
    intro x hx
    cases acc with
    | none =>
      simp only [pickLater] at hx
      injection hx with hx
      exact hx ▸ hl a (List.mem_cons_self a l)
    | some b =>
      simp only [pickLater] at hx
      by_cases hba : b.pos < a.pos
      · rw [if_pos hba] at hx
        injection hx with hx
        exact hx ▸ hl a (List.mem_cons_self a l)
      · rw [if_neg hba] at hx
        injection hx with hx
        exact hx ▸ hacc b rfl

theorem nearestPrecedingDef_lt {defs : List FuncDef} {pos : Nat} {d : FuncDef}
    (h : nearestPrecedingDef defs pos = some d) : d.pos < pos := by
  refine pickLater_preserves (fun x => x.pos < pos) _ none (by simp) ?_ d h
  intro x hx
  exact of_decide_eq_true (List.mem_filter.mp hx).2

theorem nearestPrecedingDef_zero (defs : List FuncDef) :
    nearestPrecedingDef defs 0 = none := by
  cases h : nearestPrecedingDef defs 0 with
  | none => rfl
  | some d => exact absurd (nearestPrecedingDef_lt h) (by omega)

theorem findOverloadsFromLoop_fuelIrrelevant (defs : List FuncDef) :
    ∀ (pos f1 f2 : Nat), pos ≤ f1 → pos ≤ f2 →
      findOverloadsFromLoop defs f1 pos = findOverloadsFromLoop defs f2 pos := by
  intro pos
  induction pos using Nat.strong_induction_on with
  | _ pos ih =>
    intro f1 f2 h1 h2
    match f1, f2 with
    | 0, 0 => rfl
    | 0, g2 + 1 =>
      have : pos = 0 := by omega
      subst this
      simp [findOverloadsFromLoop, nearestPrecedingDef_zero]
    | g1 + 1, 0 =>
      have : pos = 0 := by omega
      subst this
      simp [findOverloadsFromLoop, nearestPrecedingDef_zero]
    | g1 + 1, g2 + 1 =>
      simp only [findOverloadsFromLoop]
      cases h : nearestPrecedingDef defs pos with
      | none => rfl
      | some d =>
        have hdlt := nearestPrecedingDef_lt h
        cases hdec : d.decorated with
        | false => simp [hdec]
        | true =>
          have hih := ih d.pos hdlt g1 g2 (by omega) (by omega)
          simp [hdec, hih]

theorem findOverloadsFromLoop_pos_lt (defs : List FuncDef) :
    ∀ (fuel pos : Nat) (d : FuncDef),
      d ∈ findOverloadsFromLoop defs fuel pos → d.pos < pos := by
  intro fuel
  induction fuel with
  | zero => intro pos d hd; simp [findOverloadsFromLoop] at hd
  | succ fuel ih =>
    intro pos d hd
    simp only [findOverloadsFromLoop] at hd
    cases h : nearestPrecedingDef defs pos with
    | none => rw [h] at hd; simp at hd
    | some e =>
      rw [h] at hd
      cases he : e.decorated with
      | false => simp [he] at hd
      | true =>
        simp only [he, if_true] at hd
        rcases List.mem_cons.mp hd with rfl | hd2
        · exact nearestPrecedingDef_lt h
        · exact Nat.lt_trans (ih e.pos d hd2) (nearestPrecedingDef_lt h)

theorem findOverloadsFromLoop_chain (defs : List FuncDef) :
    ∀ (fuel pos : Nat),
      List.Chain' (fun a b => b.pos < a.pos) (findOverloadsFromLoop defs fuel pos) := by
  intro fuel
  induction fuel with
  | zero => intro pos; simp [findOverloadsFromLoop]
  | succ fuel ih =>
    intro pos
    simp only [findOverloadsFromLoop]
    cases h : nearestPrecedingDef defs pos with
    | none => simp
    | some d =>
      cases hd : d.decorated with
      | false => simp [hd]
      | true =>
        have hlt : ∀ b ∈ (findOverloadsFromLoop defs fuel d.pos).head?, b.pos < d.pos :=
          fun b hb => findOverloadsFromLoop_pos_lt defs fuel d.pos b (List.mem_of_mem_head? hb)
        simpa [hd] using List.chain'_cons'.mpr ⟨hlt, ih d.pos⟩

theorem overloadedPyCallLoop_find (env : OverloadEnv) (isAnalysis : Bool) :
    ∀ (rest all : List FuncDef),
      overloadedPyCallLoop env isAnalysis all rest =
        (match rest.find? env.sigMatches with
         | some f => env.inferExec f
         | none => if isAnalysis then NO_VALUES else vUnionAll (all.map env.inferExec)) := by
  intro rest
  induction rest with
  | nil => intro all; rfl
  | cons f rest ih =>
    intro all
    simp only [overloadedPyCallLoop, List.find?]
    cases hf : env.sigMatches f with
    | true => simp
    | false => simp [ih]

/-- Claim C4 counterexample: two overload candidates at positions 1 and 2
(textual order) and the implementation at position 3; both candidates match
the call.  The claim demands the first candidate in textual source order
(position 1, inferring the int 1); the code selects the candidate at
position 2 (inferring the string x), because from_context hands the
candidates to OverloadedFunctionValue exactly as _find_overload_functions
collects them walking backward, nearest-preceding first. -/
theorem c4_counterexample_reverse_order :
    overloadResolutionResult exOverloadEnv false exOverloadDefs exImpl =
      [.compiledV (.strO "x")] ∧
    overloadResolutionResult exOverloadEnv false exOverloadDefs exImpl ≠
      exOverloadEnv.inferExec exO1 := by
  refine ⟨rfl, ?_⟩
  decide

/-- Claim C4 amended (corrected): each overload candidate gets its own
execution context; the collected candidate list is ordered by strictly
decreasing start position (reverse textual order, most recently defined
preceding overload first), and resolution selects the first candidate in
that order whose argument binding succeeds, short-circuiting the rest;
being a pure function of the call input the selection is deterministic.  If
no candidate binds, the call falls back to merging the inferred results of
all candidates, or to the empty set in analysis mode. -/
theorem c4_amended_overload_resolution :
    (∀ (defs : List FuncDef) (node : FuncDef),
      List.Chain' (fun a b => b.pos < a.pos) (findOverloadFunctions defs node)) ∧
    (∀ (env : OverloadEnv) (isAnalysis : Bool) (cands : List FuncDef) (f : FuncDef),
      cands.find? env.sigMatches = some f →
      overloadedPyCall env isAnalysis cands = env.inferExec f) ∧
    (∀ (env : OverloadEnv) (isAnalysis : Bool) (cands : List FuncDef),
      cands.find? env.sigMatches = none →
      overloadedPyCall env isAnalysis cands =
        (if isAnalysis then NO_VALUES else vUnionAll (cands.map env.inferExec))) := by
  refine ⟨?_, ?_, ?_⟩
  · intro defs node
    unfold findOverloadFunctions
    cases hn : node.decorated with
    | false => simpa using findOverloadsFromLoop_chain defs node.pos node.pos
    | true =>
      have hlt : ∀ b ∈ (findOverloadsFromLoop defs node.pos node.pos).head?, b.pos < node.pos :=
        fun b hb => findOverloadsFromLoop_pos_lt defs node.pos node.pos b (List.mem_of_mem_head? hb)
      simpa using List.chain'_cons'.mpr
        ⟨hlt, findOverloadsFromLoop_chain defs node.pos node.pos⟩
  · intro env isAnalysis cands f hf
    rw [overloadedPyCall, overloadedPyCallLoop_find, hf]
  · intro env isAnalysis cands hf
    rw [overloadedPyCall, overloadedPyCallLoop_find, hf]

/-- Witness for the amended C4: in the concrete scenario the candidate list
is the reverse textual pair, its first match is the candidate at position 2
and the call returns that candidate's inference; a never-matching call
input falls back to the merge of both candidates. -/
theorem c4_amended_witness :
    (findOverloadFunctions exOverloadDefs exImpl).find? exOverloadEnv.sigMatches =
      some exO2 ∧
    overloadedPyCall exOverloadEnv false (findOverloadFunctions exOverloadDefs exImpl) =
      exOverloadEnv.inferExec exO2 ∧
    overloadedPyCall ⟨fun _ => false, exOverloadEnv.inferExec⟩ false
        (findOverloadFunctions exOverloadDefs exImpl) =
      vUnionAll ((findOverloadFunctions exOverloadDefs exImpl).map
        exOverloadEnv.inferExec) :=
  ⟨by decide,
   c4_amended_overload_resolution.2.1 exOverloadEnv false _ exO2 (by decide),
   c4_amended_overload_resolution.2.2 ⟨fun _ => false, exOverloadEnv.inferExec⟩ false _
     (by decide)⟩

theorem appendToLastGroup_append (y : YieldExpr) :
    ∀ (gs : List (Option ForStmt × List YieldExpr)) (g : Option ForStmt × List YieldExpr),
      appendToLastGroup (gs ++ [g]) y = gs ++ [(g.1, g.2 ++ [y])] := by
  intro gs
  induction gs with
  | nil => intro g; rfl
  | cons a gs ih =>
    intro g
    cases gs with
    | nil => rfl
    | cons b gs2 => simpa [appendToLastGroup] using ih g

theorem buildYieldsOrder_sameFor {fs : ForStmt} (hdc : fs.directChild = true)
    (hon : fs.oneName = true) :
    ∀ (ys : List YieldExpr), (∀ z ∈ ys, z.anc = .forLoop fs) →
      ∀ (g : List YieldExpr) (gs : List (Option ForStmt × List YieldExpr)),
        buildYieldsOrder ys (some fs.id) (gs ++ [(some fs, g)]) =
          some (gs ++ [(some fs, g ++ ys)]) := by
  intro ys
  induction ys with
  | nil => intro _ g gs; simp [buildYieldsOrder]
  | cons y ys ih =>
    intro h g gs
    have hy : y.anc = .forLoop fs := h y (List.mem_cons_self y ys)
    simp only [buildYieldsOrder, hy, hdc, hon, Bool.and_self, if_true, if_pos rfl]
    rw [appendToLastGroup_append]
    rw [ih (fun z hz => h z (List.mem_cons_of_mem y hz)) (g ++ [y]) gs]
    simp

theorem buildYieldsOrder_complex {z : YieldExpr}
    (hz : isComplexYieldPosition z = true) :
    ∀ (ys : List YieldExpr), z ∈ ys →
      ∀ (last : Option Nat) (acc : List (Option ForStmt × List YieldExpr)),
        buildYieldsOrder ys last acc = none := by
  intro ys
  induction ys with
  | nil => intro h; cases h
  | cons y ys ih =>
    intro hmem last acc
    rcases List.mem_cons.mp hmem with rfl | hmem2
    · cases hanc : z.anc with
      | whileOrIf => simp [buildYieldsOrder, hanc]
      | funcdefSelf => simp [isComplexYieldPosition, hanc] at hz
      | forLoop fs =>
        have hz2 : fs.directChild = false ∨ fs.oneName = false := by
          simpa [isComplexYieldPosition, hanc] using hz
        have hq : (fs.directChild && fs.oneName) = false := by
          rcases hz2 with h | h <;> simp [h]
        simp [buildYieldsOrder, hanc, hq]
    · cases hanc : y.anc with
      | whileOrIf => simp [buildYieldsOrder, hanc]
      | funcdefSelf =>
        simp only [buildYieldsOrder, hanc]
        exact ih hmem2 _ _
      | forLoop fs =>
        simp only [buildYieldsOrder, hanc]
        cases hq : fs.directChild && fs.oneName with
        | false => simp
        | true =>
          rw [if_pos rfl]
          split
          · exact ih hmem2 _ _
          · exact ih hmem2 _ _

/-- Claim C6 (confirmed): yields are grouped by their nearest enclosing
for-loop only when that loop binds exactly one name and is a direct child
of the function body; for such a loop the iterable is inferred and iterated
once, and for each iteration the loop variable name is bound to that
iteration's inferred element set before every yield of the loop body is
re-evaluated (so for x in (1, 2): yield x binds x to the singleton 1 and
then to the singleton 2); one yield in any more complex position (while or
if ancestor, or a non-qualifying for-loop) makes the whole computation fall
back to the unordered check_yields aggregate of the function. -/
theorem c6_yield_grouping_and_fallback :
    (∀ (env : InferEnv) (fs : ForStmt) (y : YieldExpr) (ys : List YieldExpr),
      fs.directChild = true → fs.oneName = true →
      (∀ z ∈ y :: ys, z.anc = .forLoop fs) →
      getYieldLazyValues env (y :: ys) =
        (env.iterate [] fs.iterNode).flatMap (fun lv =>
          (y :: ys).flatMap (fun z =>
            getYieldLazyValue env [(fs.varName, lv.inferIn env)] z.kind))) ∧
    (∀ (env : InferEnv) (ys : List YieldExpr) (z : YieldExpr),
      z ∈ ys → isComplexYieldPosition z = true →
      getYieldLazyValues env ys =
        (if (getReturnValuesCheckYields env ys).isEmpty then []
         else [.knownValues (getReturnValuesCheckYields env ys)])) := by
  constructor
  · intro env fs y ys hdc hon hall
    have hy : y.anc = .forLoop fs := hall y (List.mem_cons_self y ys)
    have hb : buildYieldsOrder (y :: ys) none [] = some [(some fs, y :: ys)] := by
      simp only [buildYieldsOrder, hy, hdc, hon, Bool.and_self, if_true]
      rw [if_neg (by simp)]
      simpa using buildYieldsOrder_sameFor hdc hon ys
        (fun z hz => hall z (List.mem_cons_of_mem y hz)) [y] []
    rw [getYieldLazyValues, hb]
    simp [processYieldGroup]
  · intro env ys z hz hcomplex
    rw [getYieldLazyValues, buildYieldsOrder_complex hcomplex ys hz none []]

/-- Witness for C6: the spec example binds x (name 7) to the singleton 1
and then to the singleton 2 in the two per-iteration lazy values, and the
same function with a while-nested yield added falls back to one aggregated
entry. -/
theorem c6_witness :
    getYieldLazyValues exC6Env [exC6Yield] =
      [.tree [(7, [.compiledV (.intO 1)])] 5, .tree [(7, [.compiledV (.intO 2)])] 5] ∧
    getYieldLazyValues exC6Env [exC6Yield, exC6ComplexYield] =
      [.knownValues [.compiledV (.intO 3)]] :=
  ⟨(c6_yield_grouping_and_fallback.1 exC6Env exC6Fs exC6Yield [] rfl rfl
      (by decide)).trans (by decide),
   (c6_yield_grouping_and_fallback.2 exC6Env [exC6Yield, exC6ComplexYield]
      exC6ComplexYield (by decide) (by decide)).trans (by decide)⟩

theorem guardedInference_mem (n : Nat) (base : Fin n → VSet)
    (deps : Fin n → List (Fin n)) (guard : {l : List (Fin n) // l.Nodup})
    (k : Fin n) (h : k ∈ guard.1) :
    guardedInference n base deps guard k = NO_VALUES := by
  rw [guardedInference]
  simp [h]

/-- Claim C7 (confirmed, spec-modelled: recursion.py is not under src/, so
the execution-recursion decorator is modelled from the spec): both
get_return_values and get_yield_lazy_values are wrapped by a guard keyed by
the execution context identity that returns the empty default on recursive
re-entry, and the guarded inference of a self-referential execution system
(for example the execution re-entered through a.append(a)) terminates — the
model is a total function — returning the finite base value set because the
recursive re-entry is cut off at the guard. -/
theorem c7_recursion_guard_and_termination :
    (∀ (guard : List Nat) (execId : Nat) (ctx : Node → VSet)
        (lambdaBody : Option Node) (annotTypes docstringTypes : VSet)
        (returns : List ReturnStmt), execId ∈ guard →
      getReturnValuesGuarded guard execId ctx lambdaBody annotTypes docstringTypes
        returns = NO_VALUES) ∧
    (∀ (guard : List Nat) (execId : Nat) (env : InferEnv) (ys : List YieldExpr),
      execId ∈ guard →
      getYieldLazyValuesGuarded guard execId env ys = []) ∧
    (∀ (n : Nat) (base : Fin n → VSet) (deps : Fin n → List (Fin n)) (k : Fin n),
      deps k = [k] →
      guardedInference n base deps ⟨[], List.nodup_nil⟩ k = base k) := by
  refine ⟨?_, ?_, ?_⟩
  · intro guard execId ctx lb annot doc rets h
    simp [getReturnValuesGuarded, executionRecursionGuard, h]
  · intro guard execId env ys h
    simp [getYieldLazyValuesGuarded, executionRecursionGuard, h]
  · intro n base deps k hdeps
    rw [guardedInference]
    rw [dif_neg (by simp)]
    rw [hdeps]
    simp only [List.foldl_cons, List.foldl_nil]
    rw [guardedInference_mem _ _ _ _ _ (by simp)]
    rfl

/-- Witness for C7: a concrete guard hit returns the defaults, and the
one-execution system that depends on itself resolves to its base set. -/
theorem c7_witness :
    getReturnValuesGuarded [3] 3 (fun _ => []) none [] [] [] = NO_VALUES ∧
    getYieldLazyValuesGuarded [3] 3 exC6Env [] = [] ∧
    guardedInference 1 (fun _ => [.treeV 9]) (fun k => [k]) ⟨[], List.nodup_nil⟩ 0 =
      [.treeV 9] :=
  ⟨c7_recursion_guard_and_termination.1 [3] 3 _ _ _ _ _ (by decide),
   c7_recursion_guard_and_termination.2.1 [3] 3 _ _ (by decide),
   c7_recursion_guard_and_termination.2.2 1 _ _ 0 rfl⟩

end JediCore
